import Mathlib

set_option linter.unnecessarySeqFocus false

/-!
Verification of the category-classification engine (`analyzeCategory` in
`src/routes/products.js`) of the shonra-api repository.

The JavaScript source is shallowly embedded: strings are lists of
characters, `String.prototype.toLowerCase` is modelled character-wise,
the word-boundary regex `\b<escaped keyword>\b` (flag `i`) is modelled by
a tiny pattern tokenizer plus a word-boundary matcher, the two database
queries are modelled by a `Store` record carrying the two tables and a
success flag per query (`executeQuery` in the source never throws: it
returns `{success:false}` on failure), and the `try/catch` wrapper is
modelled by an outer `Option` layer (`none` = a thrown exception, which
the catch converts to the `null` result).
-/

/-- Strings of the embedded program: JavaScript strings as char lists. -/
abbrev Str := List Char

/-- Model of `String.prototype.toLowerCase` on a single character
(ASCII range; characters outside A-Z are left unchanged). -/
def lowerChar (c : Char) : Char :=
  if 'A' ≤ c ∧ c ≤ 'Z' then Char.ofNat (c.toNat + 32) else c

/-- Model of `s.toLowerCase()`. -/
def toLower (s : Str) : Str := s.map lowerChar

/-- JavaScript regex `\w` (word character): `[A-Za-z0-9_]`. -/
def isWordChar (c : Char) : Bool :=
  ('a' ≤ c && c ≤ 'z') || ('A' ≤ c && c ≤ 'Z') || ('0' ≤ c && c ≤ '9') || c == '_'

/-- Characters matched by the category-name splitter `/[\s\-_]+/`
(whitespace, hyphen, underscore; the common ASCII whitespace forms). -/
def isSplitChar (c : Char) : Bool :=
  c == ' ' || c == '\t' || c == '\n' || c == '\r' || c == '\x0b' || c == '\x0c' ||
  c == '-' || c == '_'

/-- Split a string at every separator character.  Runs of separators
yield empty segments here where the source's `+` quantifier collapses
them; the `length > 1` filter applied immediately afterwards in the
source makes the two readings coincide. -/
def splitOnSep (p : Char → Bool) : Str → List Str
  | [] => [[]]
  | c :: rest =>
    let r := splitOnSep p rest
    if p c then [] :: r
    else
      match r with
      | [] => [[c]]
      | w :: ws => (c :: w) :: ws

/-- Characters escaped by the source's
`keywordLower.replace(/[.*+?^${}()|[\]\\]/g, '\\$&')`. -/
def isRegexSpecial (c : Char) : Bool :=
  c == '.' || c == '*' || c == '+' || c == '?' || c == '^' || c == '$' ||
  c == '\x7b' || c == '\x7d' || c == '(' || c == ')' || c == '|' ||
  c == '[' || c == ']' || c == '\\'

/-- Model of the escaping step: each regex-special character is replaced
by a backslash followed by itself. -/
def escapeRegex : Str → Str
  | [] => []
  | c :: rest => (if isRegexSpecial c then ['\\', c] else [c]) ++ escapeRegex rest

/-- Tokens of the fragment of regex pattern syntax the classifier can
produce: a literal character or the wildcard `.`. -/
inductive RTok where
  | lit (c : Char)
  | any
deriving Repr, DecidableEq

/-- Compile a pattern string into tokens.  `\c` (for a special `c`) is a
literal, `.` is the wildcard, any other unescaped special character is an
unsupported construct (`none`, modelling a `RegExp` constructor failure
or a construct beyond this fragment), and ordinary characters are
literals. -/
def tokenize : Str → Option (List RTok)
  | [] => some []
  | c :: rest =>
    if c = '\\' then
      match rest with
      | [] => none
      | d :: rest2 =>
        if isRegexSpecial d then (tokenize rest2).map (fun ts => RTok.lit d :: ts)
        else none
    else if c = '.' then (tokenize rest).map (fun ts => RTok.any :: ts)
    else if isRegexSpecial c then none
    else (tokenize rest).map (fun ts => RTok.lit c :: ts)

/-- Case-insensitive character comparison (the regex `i` flag). -/
def charFoldEq (a b : Char) : Bool := lowerChar a == lowerChar b

/-- Whether a token matches one character (under the `i` flag). -/
def tokMatches : RTok → Char → Bool
  | RTok.lit c, d => charFoldEq c d
  | RTok.any, _ => true

/-- Is the character at position `p` (if any) a word character? -/
def isWordAt (hay : Str) (p : Nat) : Bool :=
  match hay[p]? with
  | some c => isWordChar c
  | none => false

/-- JavaScript `\b`: at position `p` exactly one side is a word character. -/
def boundaryAt (hay : Str) (p : Nat) : Bool :=
  (match p with | 0 => false | q + 1 => isWordAt hay q) != isWordAt hay p

/-- Match a token list starting at position `p`, one character per token. -/
def matchToksAt : List RTok → Str → Nat → Bool
  | [], _, _ => true
  | t :: ts, hay, p =>
    (match hay[p]? with
     | some c => tokMatches t c
     | none => false) && matchToksAt ts hay (p + 1)

/-- Model of `new RegExp("\\b" + pat + "\\b", "i").test(hay)` for a
tokenized pattern body `toks`: some start position has a word boundary,
the tokens match there, and a word boundary follows the match. -/
def wbTest (toks : List RTok) (hay : Str) : Bool :=
  (List.range (hay.length + 1)).any fun i =>
    boundaryAt hay i && matchToksAt toks hay i && boundaryAt hay (i + toks.length)

/-- The literal string `kw` occurs at position `p` of `hay`, compared
case-insensitively. -/
def segMatches : Str → Str → Nat → Bool
  | [], _, _ => true
  | c :: cs, hay, p =>
    (match hay[p]? with
     | some d => charFoldEq c d
     | none => false) && segMatches cs hay (p + 1)

/-- The literal string `kw` occurs in `hay` as a whole word
(word-boundary-delimited on both sides). -/
def litWholeWord (kw hay : Str) : Bool :=
  (List.range (hay.length + 1)).any fun i =>
    boundaryAt hay i && segMatches kw hay i && boundaryAt hay (i + kw.length)

theorem matchToksAt_map_lit (kw : Str) (hay : Str) (p : Nat) :
    matchToksAt (kw.map RTok.lit) hay p = segMatches kw hay p := by
  induction kw generalizing p with
  | nil => rfl
  | cons c cs ih => simp [matchToksAt, segMatches, tokMatches, ih]

/-- Compiling an escaped keyword always succeeds and yields exactly the
keyword's characters as literal tokens. -/
theorem tokenize_escapeRegex (kw : Str) :
    tokenize (escapeRegex kw) = some (kw.map RTok.lit) := by
  induction kw with
  | nil => rfl
  | cons c cs ih =>
    by_cases h : isRegexSpecial c = true
    · simp [escapeRegex, h, tokenize, ih]
    · have hbs : c ≠ '\\' := by
        intro hc; subst hc; simp [isRegexSpecial] at h
      have hdot : c ≠ '.' := by
        intro hc; subst hc; simp [isRegexSpecial] at h
      rw [escapeRegex, tokenize.eq_def]
      simp [h, hbs, hdot, ih]

/-- On a pattern made only of literal tokens the word-boundary test is
exactly the literal whole-word test. -/
theorem wbTest_map_lit (kw hay : Str) :
    wbTest (kw.map RTok.lit) hay = litWholeWord kw hay := by
  simp [wbTest, litWholeWord, matchToksAt_map_lit]

/-- Model of `a.includes(b)`: `b` is a contiguous substring of `a`. -/
def includesStr (a b : Str) : Bool := decide (b <:+: a)

/-- A row of the `categories` table. -/
structure Category where
  id : Nat
  name : Str
  isActive : Bool
deriving Repr, DecidableEq

/-- A row of the `category_keywords` table. -/
structure KeywordRow where
  categoryId : Nat
  keyword : Str
  isHighPriority : Bool
deriving Repr, DecidableEq

/-- The database, together with one success flag per query issued by
`analyzeCategory` (`executeQuery` returns `{success:false}` on failure
instead of throwing). -/
structure Store where
  categories : List Category
  keywords : List KeywordRow
  categoriesOk : Bool
  keywordsOk : Bool

/-- Byte-order lexicographic comparison of strings (`ORDER BY ... ASC`). -/
def strLe : Str → Str → Bool
  | [], _ => true
  | _ :: _, [] => false
  | a :: as, b :: bs => if a = b then strLe as bs else decide (a < b)

/-- Insert into a sorted list (front of the run of equal keys). -/
def insertLe (le : α → α → Bool) (x : α) : List α → List α
  | [] => [x]
  | y :: ys => if le x y then x :: y :: ys else y :: insertLe le x ys

/-- Stable insertion sort, modelling the SQL `ORDER BY`. -/
def sortLe (le : α → α → Bool) : List α → List α
  | [] => []
  | x :: xs => insertLe le x (sortLe le xs)

/-- Result list of
`SELECT id, name FROM categories WHERE is_active = 1 ORDER BY name ASC`. -/
def activeCategories (s : Store) : List Category :=
  sortLe (fun a b => strLe a.name b.name) (s.categories.filter (fun c => c.isActive))

/-- The first query; `none` models `{success:false}`. -/
def fetchCategories (s : Store) : Option (List Category) :=
  if s.categoriesOk then some (activeCategories s) else none

/-- `ORDER BY ck.category_id, ck.is_high_priority DESC, ck.keyword ASC`. -/
def rowLe (a b : KeywordRow) : Bool :=
  decide (a.categoryId < b.categoryId) ||
  (a.categoryId == b.categoryId &&
    ((a.isHighPriority && !b.isHighPriority) ||
     (a.isHighPriority == b.isHighPriority && strLe a.keyword b.keyword)))

/-- Result list of the keyword query: the join keeps one copy of a
keyword row per active category sharing its `category_id` (the joined
`c.name` column is never read afterwards and is dropped here), then the
rows are ordered. -/
def joinedKeywordRows (s : Store) : List KeywordRow :=
  sortLe rowLe
    (s.keywords.flatMap fun k =>
      ((s.categories.filter (fun c => c.isActive)).filter
        (fun c => c.id == k.categoryId)).map (fun _ => k))

/-- The second query; `none` models `{success:false}`. -/
def fetchKeywords (s : Store) : Option (List KeywordRow) :=
  if s.keywordsOk then some (joinedKeywordRows s) else none

/-- The three per-category dictionaries built before scoring
(`categoryKeywords`, `categoryWords`, `categoryHighPriorityKeywords`),
modelled as functions from a category id. -/
structure CatMaps where
  kws : Nat → Option (List Str)
  words : Nat → Option (List Str)
  hp : Nat → Option (List Str)

/-- Overwrite one entry of a dictionary. -/
def updateF (f : Nat → Option (List Str)) (i : Nat) (v : List Str) :
    Nat → Option (List Str) :=
  fun j => if j = i then some v else f j

/-- The category-name tokens: the lowercased name split on
whitespace/hyphen/underscore, keeping tokens of length > 1. -/
def catWordsOf (cat : Category) : List Str :=
  (splitOnSep isSplitChar (toLower cat.name)).filter (fun w => decide (1 < w.length))

/-- The initial keyword list of a category: its lowercased name followed
by its name tokens. -/
def initKeywords (cat : Category) : List Str :=
  toLower cat.name :: catWordsOf cat

/-- The first `categories.forEach` loop: initialize the dictionaries
(later categories with the same id overwrite earlier ones, as in a JS
object keyed by `cat.id`). -/
def initMaps (cats : List Category) : CatMaps :=
  cats.foldl
    (fun m cat =>
      { kws := updateF m.kws cat.id (initKeywords cat)
        words := updateF m.words cat.id (catWordsOf cat)
        hp := updateF m.hp cat.id [] })
    { kws := fun _ => none, words := fun _ => none, hp := fun _ => none }

/-- The `keywordsResult.data.forEach` loop: append each fetched keyword
to its category's list (guarded by `if (categoryKeywords[kw.category_id])`),
and to the high-priority list when flagged.  The high-priority entry is
always initialized together with the keyword entry, so the `getD []`
default on it is never reached. -/
def populate (m : CatMaps) (rows : List KeywordRow) : CatMaps :=
  rows.foldl
    (fun m kw =>
      match m.kws kw.categoryId with
      | none => m
      | some arr =>
        { kws := updateF m.kws kw.categoryId (arr ++ [kw.keyword])
          words := m.words
          hp :=
            if kw.isHighPriority then
              updateF m.hp kw.categoryId ((m.hp kw.categoryId).getD [] ++ [kw.keyword])
            else m.hp })
    m

/-- Build the dictionaries from the fetched categories and the keyword
query result (`if (keywordsResult.success && ... && length > 0)`). -/
def buildMaps (cats : List Category) (kwRes : Option (List KeywordRow)) : CatMaps :=
  let m0 := initMaps cats
  match kwRes with
  | some rows => if rows.isEmpty then m0 else populate m0 rows
  | none => m0

/-- The body of the inner `keywords.forEach` loop for one candidate
keyword.  The outer `Option` layer models the `RegExp` constructor: the
escaped pattern is compiled before testing, `none` would be a thrown
exception.  `wordsOpt` is the `categoryWords[cat.id]` lookup. -/
def keywordStep (catName : Str) (wordsOpt : Option (List Str)) (hpList : List Str)
    (pnLower : Str) (acc : Nat × List Str) (keyword : Str) :
    Option (Nat × List Str) :=
  let kwLower := toLower keyword
  match tokenize (escapeRegex kwLower) with
  | none => none
  | some toks =>
    let isExactWord := wbTest toks pnLower
    let isSubstring := includesStr pnLower kwLower
    if isExactWord || isSubstring then
      let isHighPriority := hpList.any fun h =>
        kwLower == toLower h || includesStr kwLower (toLower h) ||
        includesStr (toLower h) kwLower
      if keyword == toLower catName then some (acc.1 + 20, acc.2 ++ [keyword])
      else if (wordsOpt.getD []).contains keyword then some (acc.1 + 15, acc.2 ++ [keyword])
      else if isHighPriority && isExactWord then some (acc.1 + 10, acc.2 ++ [keyword])
      else if isHighPriority && isSubstring then some (acc.1 + 5, acc.2 ++ [keyword])
      else if isExactWord then some (acc.1 + 5, acc.2 ++ [keyword])
      else some (acc.1 + 1, acc.2 ++ [keyword])
    else some acc

/-- The two bonus passes that follow the keyword loop: the multi-match
bonus and the per-matched-keyword length bonus. -/
def applyBonuses (sm : Nat × List Str) : Nat :=
  let s1 := if 1 < sm.2.length then sm.1 + sm.2.length * 2 else sm.1
  sm.2.foldl (fun s k => if 5 < k.length then s + 2 else s) s1

/-- Score one category: run the keyword loop over
`categoryKeywords[cat.id] || []` and apply the bonuses. -/
def catScore (maps : CatMaps) (pnLower : Str) (cat : Category) : Option Nat := do
  let sm ← ((maps.kws cat.id).getD []).foldlM
    (keywordStep cat.name (maps.words cat.id) ((maps.hp cat.id).getD []) pnLower)
    (0, [])
  pure (applyBonuses sm)

/-- The best-match fold over all categories (`score > bestScore` replaces
the current best) followed by the `bestScore > 0` threshold. -/
def scoreAll (cats : List Category) (maps : CatMaps) (pnLower : Str) :
    Option (Option Nat) := do
  let best ← cats.foldlM
    (fun (acc : Option Nat × Nat) cat => do
      let sc ← catScore maps pnLower cat
      pure (if acc.2 < sc then (some cat.id, sc) else acc))
    ((none : Option Nat), 0)
  pure (if 0 < best.2 then best.1 else none)

/-- The body of `analyzeCategory` inside its `try`: `none` of the outer
`Option` is a thrown exception.  The product name is an `Option Str`
because the caller may pass a non-string value, whose `.toLowerCase()`
call throws; the call sits after the categories check, as in the source. -/
def analyzeCore (pn : Option Str) (s : Store) : Option (Option Nat) :=
  match fetchCategories s with
  | none => some none
  | some cats =>
    if cats.isEmpty then some none
    else do
      let pnStr ← pn
      let pnLower := toLower pnStr
      let maps := buildMaps cats (fetchKeywords s)
      scoreAll cats maps pnLower

/-- `analyzeCategory`: the `catch` converts any thrown exception into the
`null` result. -/
def analyzeCategory (pn : Option Str) (s : Store) : Option Nat :=
  match analyzeCore pn s with
  | some r => r
  | none => none

/-- `analyzeCategory` applied to an actual string argument. -/
def analyzeCategoryStr (pn : Str) (s : Store) : Option Nat :=
  analyzeCategory (some pn) s

/-- Exception-free form of the loop body: identical to `keywordStep`
except that the compiled regex test is replaced by the literal
whole-word test, which `tokenize_escapeRegex` and `wbTest_map_lit` prove
equal to it. -/
def pureStep (catName : Str) (wordsOpt : Option (List Str)) (hpList : List Str)
    (pnLower : Str) (acc : Nat × List Str) (keyword : Str) : Nat × List Str :=
  let kwLower := toLower keyword
  let isExactWord := litWholeWord kwLower pnLower
  let isSubstring := includesStr pnLower kwLower
  if isExactWord || isSubstring then
    let isHighPriority := hpList.any fun h =>
      kwLower == toLower h || includesStr kwLower (toLower h) ||
      includesStr (toLower h) kwLower
    if keyword == toLower catName then (acc.1 + 20, acc.2 ++ [keyword])
    else if (wordsOpt.getD []).contains keyword then (acc.1 + 15, acc.2 ++ [keyword])
    else if isHighPriority && isExactWord then (acc.1 + 10, acc.2 ++ [keyword])
    else if isHighPriority && isSubstring then (acc.1 + 5, acc.2 ++ [keyword])
    else if isExactWord then (acc.1 + 5, acc.2 ++ [keyword])
    else (acc.1 + 1, acc.2 ++ [keyword])
  else acc

theorem keywordStep_eq_pure (catName : Str) (wordsOpt : Option (List Str))
    (hpList : List Str) (pnLower : Str) (acc : Nat × List Str) (keyword : Str) :
    keywordStep catName wordsOpt hpList pnLower acc keyword =
      some (pureStep catName wordsOpt hpList pnLower acc keyword) := by
  simp only [keywordStep, pureStep, tokenize_escapeRegex, wbTest_map_lit]
  split_ifs <;> rfl

theorem foldlM_option_eq_foldl {α β : Type} (f : β → α → Option β) (g : β → α → β)
    (h : ∀ b a, f b a = some (g b a)) (l : List α) (b : β) :
    l.foldlM f b = some (l.foldl g b) := by
  induction l generalizing b with
  | nil => rfl
  | cons a t ih => simp [List.foldlM_cons, h, List.foldl_cons, ih]

/-- Exception-free category score. -/
def catScorePure (maps : CatMaps) (pnLower : Str) (cat : Category) : Nat :=
  applyBonuses
    (((maps.kws cat.id).getD []).foldl
      (pureStep cat.name (maps.words cat.id) ((maps.hp cat.id).getD []) pnLower)
      (0, []))

theorem catScore_eq_pure (maps : CatMaps) (pnLower : Str) (cat : Category) :
    catScore maps pnLower cat = some (catScorePure maps pnLower cat) := by
  unfold catScore catScorePure
  rw [foldlM_option_eq_foldl _ _ (keywordStep_eq_pure cat.name _ _ _)]
  rfl

/-- The best-match fold on an already-scored list. -/
def stepBest (acc : Option Nat × Nat) (p : Nat × Nat) : Option Nat × Nat :=
  if acc.2 < p.2 then (some p.1, p.2) else acc

/-- Run the best-match fold over a scored list and apply the
`bestScore > 0` threshold. -/
def bestOf (l : List (Nat × Nat)) : Option Nat :=
  if 0 < (l.foldl stepBest ((none : Option Nat), 0)).2
  then (l.foldl stepBest ((none : Option Nat), 0)).1
  else none

theorem scoreAll_eq_pure (cats : List Category) (maps : CatMaps) (pnLower : Str) :
    scoreAll cats maps pnLower =
      some (bestOf (cats.map fun c => (c.id, catScorePure maps pnLower c))) := by
  unfold scoreAll
  rw [foldlM_option_eq_foldl
    (fun acc cat => do
      let sc ← catScore maps pnLower cat
      pure (if acc.2 < sc then (some cat.id, sc) else acc))
    (fun acc cat => stepBest acc (cat.id, catScorePure maps pnLower cat))
    (fun b a => by simp [catScore_eq_pure, stepBest])]
  unfold bestOf
  rw [List.foldl_map]
  rfl

/-- Exception-free form of the whole classifier; `analyze_eq_pure` shows
it agrees with `analyzeCategoryStr` on every string input. -/
def analyzePure (pn : Str) (s : Store) : Option Nat :=
  match fetchCategories s with
  | none => none
  | some cats =>
    if cats.isEmpty then none
    else bestOf (cats.map fun c =>
      (c.id, catScorePure (buildMaps cats (fetchKeywords s)) (toLower pn) c))

theorem analyze_eq_pure (pn : Str) (s : Store) :
    analyzeCategoryStr pn s = analyzePure pn s := by
  unfold analyzeCategoryStr analyzeCategory analyzeCore analyzePure
  cases fetchCategories s with
  | none => rfl
  | some cats =>
    by_cases h : cats.isEmpty
    · simp [h]
    · simp only [h, if_false]
      rw [show (some pn >>= fun pnStr =>
          scoreAll cats (buildMaps cats (fetchKeywords s)) (toLower pnStr)) =
          scoreAll cats (buildMaps cats (fetchKeywords s)) (toLower pn) from rfl]
      rw [scoreAll_eq_pure]
      simp

/-- The keyword loop of one category, exception-free form
(`catScorePure` = `applyBonuses` of this). -/
def scoreKeywords (maps : CatMaps) (pnLower : Str) (cat : Category) : Nat × List Str :=
  ((maps.kws cat.id).getD []).foldl
    (pureStep cat.name (maps.words cat.id) ((maps.hp cat.id).getD []) pnLower)
    (0, [])

theorem catScorePure_eq (maps : CatMaps) (pnLower : Str) (cat : Category) :
    catScorePure maps pnLower cat = applyBonuses (scoreKeywords maps pnLower cat) := rfl

/-- The match test of the spec, on a raw candidate: the lowercased
candidate occurs in the lowercased product name as a whole word or as a
substring. -/
def specMatched (pnLower cand : Str) : Bool :=
  litWholeWord (toLower cand) pnLower || includesStr pnLower (toLower cand)

/-- The spec's high-priority test: the candidate case-insensitively
equals, contains, or is contained in a registered high-priority keyword. -/
def specHighPriority (hpList : List Str) (cand : Str) : Bool :=
  hpList.any fun h =>
    toLower cand == toLower h || includesStr (toLower cand) (toLower h) ||
    includesStr (toLower h) (toLower cand)

/-- The points a candidate earns, written as the spec's priority cascade
(first matching rule wins): +20 equals the lowercased category name, +15
is a category-name token, +10 high-priority and exact word, +5
high-priority and matched only as a substring, +5 exact word, +1
substring only, 0 if neither match test passes. -/
def specPoints (catNameLower : Str) (catWords : List Str) (hpList : List Str)
    (pnLower : Str) (cand : Str) : Nat :=
  let exact := litWholeWord (toLower cand) pnLower
  let sub := includesStr pnLower (toLower cand)
  if !(exact || sub) then 0
  else if cand == catNameLower then 20
  else if catWords.contains cand then 15
  else if specHighPriority hpList cand && exact then 10
  else if specHighPriority hpList cand && (sub && !exact) then 5
  else if exact then 5
  else 1

theorem cascadePoints (e sub hp nameEq wordsMem : Bool) (acc : Nat × List Str)
    (cand : Str) :
    (if (e || sub) = true then
      if nameEq = true then (acc.1 + 20, acc.2 ++ [cand])
      else if wordsMem = true then (acc.1 + 15, acc.2 ++ [cand])
      else if (hp && e) = true then (acc.1 + 10, acc.2 ++ [cand])
      else if (hp && sub) = true then (acc.1 + 5, acc.2 ++ [cand])
      else if e = true then (acc.1 + 5, acc.2 ++ [cand])
      else (acc.1 + 1, acc.2 ++ [cand])
    else acc) =
    (acc.1 + (if (!(e || sub)) = true then 0
      else if nameEq = true then 20
      else if wordsMem = true then 15
      else if (hp && e) = true then 10
      else if (hp && (sub && !e)) = true then 5
      else if e = true then 5
      else 1),
     acc.2 ++ if (e || sub) = true then [cand] else []) := by
  cases e <;> cases sub <;> cases hp <;> cases nameEq <;> cases wordsMem <;> simp

/-- C1: for every candidate keyword, the loop body of `analyzeCategory`
adds exactly the points prescribed by the spec's priority cascade
(`specPoints`), records the candidate as matched exactly when one of the
two match tests passes, and never throws. -/
theorem keyword_scoring_priority (catName : Str) (wordsOpt : Option (List Str))
    (catWords : List Str) (hpList : List Str) (pnLower : Str) (acc : Nat × List Str)
    (cand : Str) (hw : wordsOpt = some catWords) :
    keywordStep catName wordsOpt hpList pnLower acc cand =
      some (acc.1 + specPoints (toLower catName) catWords hpList pnLower cand,
        acc.2 ++ if specMatched pnLower cand then [cand] else []) := by
  subst hw
  rw [keywordStep_eq_pure]
  simp only [pureStep, specPoints, specMatched, specHighPriority, Option.getD_some]
  exact congrArg some
    (cascadePoints (litWholeWord (toLower cand) pnLower)
      (includesStr pnLower (toLower cand))
      (hpList.any fun h =>
        toLower cand == toLower h || includesStr (toLower cand) (toLower h) ||
          includesStr (toLower h) (toLower cand))
      (cand == toLower catName) (catWords.contains cand) acc cand)

def w1CatName : Str := "electronics".data
def w1Words : List Str := ["electronics".data]
def w1Pn : Str := "smart gadget".data
def w1Cand : Str := "gadget".data

theorem keyword_scoring_priority_witness :
    keywordStep w1CatName (some w1Words) [] w1Pn (0, []) w1Cand =
      some (0 + specPoints (toLower w1CatName) w1Words [] w1Pn w1Cand,
        [] ++ if specMatched w1Pn w1Cand then [w1Cand] else []) :=
  keyword_scoring_priority w1CatName (some w1Words) w1Words [] w1Pn (0, []) w1Cand rfl

theorem foldl_lengthBonus (l : List Str) (s : Nat) :
    l.foldl (fun s k => if 5 < k.length then s + 2 else s) s =
      s + 2 * l.countP (fun k => decide (5 < k.length)) := by
  induction l generalizing s with
  | nil => simp
  | cons k t ih =>
    rw [List.foldl_cons, List.countP_cons]
    by_cases h : 5 < k.length <;> simp [h, ih] <;> omega

/-- The two bonuses as claim C2 states them: the multi-match bonus fires
when more than one DISTINCT keyword matched, and each matched keyword
longer than 5 characters adds +2. -/
def claimBonuses (sm : Nat × List Str) : Nat :=
  sm.1 + (if 1 < sm.2.dedup.length then 2 * sm.2.length else 0) +
    2 * sm.2.countP (fun k => decide (5 < k.length))

/-- C2 (amended): after the keyword loop, the category's score is the
accumulated keyword points plus exactly two bonuses — `2 * (number of
matched-keyword entries)` when more than one entry was recorded
(occurrences, counting duplicate candidate texts separately), and +2 per
recorded entry longer than 5 characters, uncapped; and this part of the
computation never throws. -/
theorem category_bonuses (maps : CatMaps) (pnLower : Str) (cat : Category) :
    catScore maps pnLower cat =
      some ((scoreKeywords maps pnLower cat).1 +
        (if 1 < (scoreKeywords maps pnLower cat).2.length then
          2 * (scoreKeywords maps pnLower cat).2.length else 0) +
        2 * (scoreKeywords maps pnLower cat).2.countP (fun k => decide (5 < k.length))) := by
  rw [catScore_eq_pure, catScorePure_eq]
  unfold applyBonuses
  rw [foldl_lengthBonus]
  split_ifs <;> simp <;> omega

def tvS : Str := "tv".data
def tvCat : Category := ⟨1, tvS, true⟩
def tvStore : Store := ⟨[tvCat], [], true, true⟩
def tvMaps : CatMaps := buildMaps (activeCategories tvStore) (fetchKeywords tvStore)

/-- C2 (counterexample): for the single-token category "tv" and product
name "tv", only ONE distinct keyword matches (the lowercased name, which
occurs twice among the candidates), so the claim's "more than one
distinct keyword" bonus does not fire and the claim predicts a total of
40; the code nevertheless adds the multi-match bonus for the two
occurrences and produces 44. -/
theorem category_bonuses_counterexample :
    scoreKeywords tvMaps tvS tvCat = (40, [tvS, tvS]) ∧
    (scoreKeywords tvMaps tvS tvCat).2.dedup.length = 1 ∧
    claimBonuses (scoreKeywords tvMaps tvS tvCat) = 40 ∧
    catScorePure tvMaps tvS tvCat = 44 ∧
    catScore tvMaps tvS tvCat = some 44 := by
  refine ⟨by decide, by decide, by decide, by decide, ?_⟩
  rw [catScore_eq_pure]
  decide

def maxScore (l : List (Nat × Nat)) : Nat := l.foldr (fun p m => max p.2 m) 0

theorem maxScore_cons (p : Nat × Nat) (l : List (Nat × Nat)) :
    maxScore (p :: l) = max p.2 (maxScore l) := rfl

theorem foldBest_snd (l : List (Nat × Nat)) (acc : Option Nat × Nat) :
    (l.foldl stepBest acc).2 = max acc.2 (maxScore l) := by
  induction l generalizing acc with
  | nil => simp [maxScore]
  | cons p t ih =>
    rw [List.foldl_cons, ih, maxScore_cons]
    unfold stepBest
    by_cases h : acc.2 < p.2
    · rw [if_pos h]
      show max p.2 (maxScore t) = max acc.2 (max p.2 (maxScore t))
      omega
    · rw [if_neg h]
      omega

theorem foldBest_of_le (l : List (Nat × Nat)) (acc : Option Nat × Nat)
    (h : maxScore l ≤ acc.2) : l.foldl stepBest acc = acc := by
  induction l generalizing acc with
  | nil => rfl
  | cons p t ih =>
    rw [maxScore_cons] at h
    rw [List.foldl_cons]
    have h1 : ¬acc.2 < p.2 := by omega
    rw [show stepBest acc p = acc from if_neg h1]
    exact ih acc (by omega)

theorem foldBest_find (l : List (Nat × Nat)) (acc : Option Nat × Nat)
    (h : acc.2 < maxScore l) :
    (l.foldl stepBest acc).1 =
      (l.find? fun p => p.2 == maxScore l).map Prod.fst := by
  induction l generalizing acc with
  | nil => rw [show maxScore [] = 0 from rfl] at h; omega
  | cons p t ih =>
    rw [maxScore_cons] at h
    rw [List.foldl_cons]
    by_cases hc : acc.2 < p.2
    · rw [show stepBest acc p = (some p.1, p.2) from if_pos hc]
      by_cases ht : maxScore t ≤ p.2
      · have hm2 : maxScore (p :: t) = p.2 := by rw [maxScore_cons]; omega
        rw [foldBest_of_le t (some p.1, p.2) ht]
        rw [List.find?_cons_of_pos _ (by rw [hm2]; simp)]
        rfl
      · push_neg at ht
        have hm2 : maxScore (p :: t) = maxScore t := by rw [maxScore_cons]; omega
        rw [ih (some p.1, p.2) ht, hm2]
        rw [List.find?_cons_of_neg _ (by simp; omega)]
    · have hpl : p.2 ≤ acc.2 := by omega
      have hml : acc.2 < maxScore t := by omega
      rw [show stepBest acc p = acc from if_neg hc]
      have hm2 : maxScore (p :: t) = maxScore t := by rw [maxScore_cons]; omega
      rw [ih acc hml, hm2]
      rw [List.find?_cons_of_neg _ (by simp; omega)]

theorem foldBest_fst_mem (l : List (Nat × Nat)) (acc : Option Nat × Nat) :
    (l.foldl stepBest acc).1 = acc.1 ∨
      ∃ p ∈ l, (l.foldl stepBest acc).1 = some p.1 := by
  induction l generalizing acc with
  | nil => exact Or.inl rfl
  | cons p t ih =>
    rw [List.foldl_cons]
    rcases ih (stepBest acc p) with h | ⟨q, hq, hfst⟩
    · by_cases hc : acc.2 < p.2
      · right
        refine ⟨p, List.mem_cons_self p t, ?_⟩
        rw [h, show stepBest acc p = (some p.1, p.2) from if_pos hc]
      · left
        rw [h, show stepBest acc p = acc from if_neg hc]
    · right
      exact ⟨q, List.mem_cons_of_mem _ hq, hfst⟩

/-- The selection rule as claim C3 states it: the first category (in
iteration order) attaining the maximal score, provided that maximum is
positive; no match otherwise. -/
def specBestFn (l : List (Nat × Nat)) : Option Nat :=
  if 0 < maxScore l then (l.find? fun p => p.2 == maxScore l).map Prod.fst
  else none

theorem bestOf_eq_specBestFn (l : List (Nat × Nat)) : bestOf l = specBestFn l := by
  unfold bestOf specBestFn
  have hsnd : (l.foldl stepBest ((none : Option Nat), 0)).2 = maxScore l := by
    rw [foldBest_snd]; simp
  by_cases hp : 0 < maxScore l
  · have h2 : 0 < (l.foldl stepBest ((none : Option Nat), 0)).2 := by
      rw [hsnd]; exact hp
    rw [if_pos h2, if_pos hp]
    exact foldBest_find l ((none : Option Nat), 0) (by simpa using hp)
  · have h2 : ¬0 < (l.foldl stepBest ((none : Option Nat), 0)).2 := by
      rw [hsnd]; exact hp
    rw [if_neg h2, if_neg hp]

/-- C3: on a successful categories fetch, `analyzeCategory` returns the
id of the first iterated category whose cumulative score equals the
strictly highest score (later categories replace the best only on a
strictly greater score), when that best score is positive, and `null`
otherwise. -/
theorem best_category_selection (pn : Str) (s : Store) (cats : List Category)
    (h : fetchCategories s = some cats) :
    analyzeCategoryStr pn s =
      specBestFn (cats.map fun c =>
        (c.id, catScorePure (buildMaps cats (fetchKeywords s)) (toLower pn) c)) := by
  rw [analyze_eq_pure]
  unfold analyzePure
  rw [h]
  show (if cats.isEmpty = true then none
    else bestOf (cats.map fun c =>
      (c.id, catScorePure (buildMaps cats (fetchKeywords s)) (toLower pn) c))) =
    specBestFn (cats.map fun c =>
      (c.id, catScorePure (buildMaps cats (fetchKeywords s)) (toLower pn) c))
  by_cases he : cats.isEmpty
  · have h0 : cats = [] := by simpa using he
    subst h0
    simp [specBestFn, maxScore]
  · rw [if_neg he]
    exact bestOf_eq_specBestFn _

theorem mem_insertLe {α : Type} (le : α → α → Bool) (x : α) (l : List α) (a : α) :
    a ∈ insertLe le x l ↔ a = x ∨ a ∈ l := by
  induction l with
  | nil => simp [insertLe]
  | cons y ys ih =>
    unfold insertLe
    by_cases h : le x y
    · rw [if_pos h]
      simp [List.mem_cons]
    · rw [if_neg h]
      simp only [List.mem_cons, ih]
      tauto

theorem mem_sortLe {α : Type} (le : α → α → Bool) (l : List α) (a : α) :
    a ∈ sortLe le l ↔ a ∈ l := by
  induction l with
  | nil => simp [sortLe]
  | cons x xs ih => simp [sortLe, mem_insertLe, ih]

theorem bestOf_mem (l : List (Nat × Nat)) (i : Nat) (h : bestOf l = some i) :
    ∃ p ∈ l, p.1 = i := by
  unfold bestOf at h
  by_cases hc : 0 < (l.foldl stepBest ((none : Option Nat), 0)).2
  · rw [if_pos hc] at h
    rcases foldBest_fst_mem l ((none : Option Nat), 0) with h0 | ⟨p, hp, hf⟩
    · rw [h0] at h
      exact absurd h (by simp)
    · rw [hf] at h
      exact ⟨p, hp, Option.some.inj h⟩
  · rw [if_neg hc] at h
    exact absurd h (by simp)

theorem fetchCategories_some (s : Store) (cats : List Category)
    (h : fetchCategories s = some cats) : cats = activeCategories s := by
  unfold fetchCategories at h
  by_cases hk : s.categoriesOk
  · rw [if_pos hk] at h
    exact (Option.some.inj h).symm
  · rw [if_neg hk] at h
    cases h

theorem analyzeCore_none_input (s : Store) :
    analyzeCore none s = some none ∨ analyzeCore none s = none := by
  unfold analyzeCore
  split
  · exact Or.inl rfl
  · rename_i cats heq
    by_cases he : cats.isEmpty
    · rw [if_pos he]
      exact Or.inl rfl
    · rw [if_neg he]
      exact Or.inr rfl

theorem analyzeCategory_none_input (s : Store) :
    analyzeCategory none s = none := by
  unfold analyzeCategory
  rcases analyzeCore_none_input s with h | h <;> rw [h]

/-- C9: whenever `analyzeCategory` returns a non-null value, it is the id
of an active category present in the store at that call — never an
inactive category's id or a fabricated value. -/
theorem result_is_active_id (pn : Option Str) (s : Store) (i : Nat)
    (h : analyzeCategory pn s = some i) :
    ∃ c ∈ s.categories.filter (fun c => c.isActive), c.id = i := by
  cases pn with
  | none =>
    rw [analyzeCategory_none_input s] at h
    cases h
  | some pnStr =>
    have h2 : analyzePure pnStr s = some i := by
      rw [← analyze_eq_pure]
      exact h
    unfold analyzePure at h2
    split at h2
    · cases h2
    · rename_i cats hf
      by_cases he : cats.isEmpty
      · rw [if_pos he] at h2
        cases h2
      · rw [if_neg he] at h2
        obtain ⟨p, hp, hpi⟩ := bestOf_mem _ i h2
        obtain ⟨c, hc, hcp⟩ := List.mem_map.mp hp
        refine ⟨c, ?_, ?_⟩
        · have hmem : c ∈ activeCategories s := by
            rw [← fetchCategories_some s cats hf]
            exact hc
          unfold activeCategories at hmem
          exact (mem_sortLe _ _ _).mp hmem
        · rw [← hpi, ← hcp]

def sW : Store := ⟨[⟨1, "electronics".data, true⟩], [], true, true⟩
def wCats : List Category := [⟨1, "electronics".data, true⟩]
def wPn : Str := "electronics gadget".data

theorem best_category_selection_witness :
    analyzeCategoryStr wPn sW =
      specBestFn (wCats.map fun c =>
        (c.id, catScorePure (buildMaps wCats (fetchKeywords sW)) (toLower wPn) c)) :=
  best_category_selection wPn sW wCats rfl

theorem result_is_active_id_witness :
    ∃ c ∈ sW.categories.filter (fun c => c.isActive), c.id = 1 :=
  result_is_active_id (some wPn) sW 1 (by decide)

/-- The store with the keyword query failing (`{success:false}`). -/
def kwFail (s : Store) : Store := ⟨s.categories, s.keywords, s.categoriesOk, false⟩

/-- The store with an empty keyword table and a succeeding keyword query. -/
def kwEmpty (s : Store) : Store := ⟨s.categories, [], s.categoriesOk, true⟩

/-- C4 (amended): if the CATEGORIES query fails, or no active category
exists, `analyzeCategory` returns `null` and never throws; a failed
KEYWORD query, however, is not treated as "no categories": the
classifier proceeds exactly as if no keywords were stored (name-derived
candidates only) and may still return a category id. -/
theorem fetch_failure_handling (pn : Option Str) (pn2 : Str) (s : Store) :
    (s.categoriesOk = false → analyzeCategory pn s = none) ∧
    (activeCategories s = [] → analyzeCategory pn s = none) ∧
    analyzeCategoryStr pn2 (kwFail s) = analyzeCategoryStr pn2 (kwEmpty s) := by
  refine ⟨?_, ?_, ?_⟩
  · intro hko
    unfold analyzeCategory analyzeCore fetchCategories
    rw [hko]
    rfl
  · intro hac
    by_cases hk : s.categoriesOk
    · unfold analyzeCategory analyzeCore fetchCategories
      rw [if_pos hk, hac]
      rfl
    · unfold analyzeCategory analyzeCore fetchCategories
      rw [if_neg hk]
  · rfl

def s4 : Store := ⟨[⟨1, "electronics".data, true⟩], [], true, false⟩
def pn4 : Str := "electronics".data

/-- C4 (counterexample): this store's keyword retrieval fails
(`keywordsOk = false`), yet `analyzeCategory` does not return the
claimed `null`: it classifies the product by the category name alone. -/
theorem fetch_failure_handling_counterexample :
    s4.keywordsOk = false ∧ analyzeCategoryStr pn4 s4 = some 1 := by
  refine ⟨rfl, by decide⟩

theorem fetch_failure_handling_witness :
    analyzeCategory (some pn4) ⟨[⟨1, "aa".data, true⟩], [], false, true⟩ = none ∧
    analyzeCategory (some pn4) ⟨[], [], true, true⟩ = none ∧
    analyzeCategoryStr pn4 (kwFail sW) = analyzeCategoryStr pn4 (kwEmpty sW) :=
  ⟨(fetch_failure_handling (some pn4) pn4 ⟨[⟨1, "aa".data, true⟩], [], false, true⟩).1 rfl,
   (fetch_failure_handling (some pn4) pn4 ⟨[], [], true, true⟩).2.1 rfl,
   (fetch_failure_handling (some pn4) pn4 sW).2.2⟩

def sC5 : Store := ⟨[⟨1, "aa".data, true⟩], [], true, true⟩
def qqPn : Str := "qq".data

/-- C5: the code does NOT fail fast on malformed input.  An empty
product name runs to completion and yields the ordinary no-match `null`;
a non-string product name throws inside the `try` (at `.toLowerCase()`)
and the `catch` also converts it to `null`; both are observably
identical to an ordinary unmatched product (third conjunct). -/
theorem malformed_input_silent_null :
    analyzeCategoryStr [] sC5 = none ∧
    analyzeCategory none sC5 = none ∧
    analyzeCategoryStr qqPn sC5 = none := by
  exact ⟨by decide, by decide, by decide⟩

def abPat : Str := "a.b".data
def axbStr : Str := "axb".data

/-- C6: compiling the escaped keyword never fails and produces only
literal tokens, so the word-boundary test accepts exactly the literal
keyword text as a whole word; concretely, the pattern `a.b` WITHOUT
escaping would compile with a wildcard and match "axb", while the
escaped (literal) reading matches "a.b" only. -/
theorem escaping_literal_whole_word (kw hay : Str) :
    (tokenize (escapeRegex kw) = some (kw.map RTok.lit) ∧
      wbTest (kw.map RTok.lit) hay = litWholeWord kw hay) ∧
    (tokenize abPat = some [RTok.lit 'a', RTok.any, RTok.lit 'b'] ∧
      wbTest [RTok.lit 'a', RTok.any, RTok.lit 'b'] axbStr = true ∧
      litWholeWord abPat axbStr = false ∧
      litWholeWord abPat abPat = true) :=
  ⟨⟨tokenize_escapeRegex kw, wbTest_map_lit kw hay⟩,
   by decide, by decide, by decide, by decide⟩

/-- C7 (amended): classification is case-insensitive in the PRODUCT
NAME: product names with the same lowercasing are classified
identically.  (Case-insensitivity in stored keyword text fails — see the
counterexample — because the +20/+15 rules compare the raw keyword text
against the lowercased category name and tokens.) -/
theorem product_name_case_insensitive (pn pn2 : Str) (s : Store)
    (h : toLower pn = toLower pn2) :
    analyzeCategoryStr pn s = analyzeCategoryStr pn2 s := by
  rw [analyze_eq_pure, analyze_eq_pure]
  unfold analyzePure
  simp only [h]

def pnUC : Str := "ELECTRONICS gadget".data
def pnLC : Str := "electronics gadget".data

theorem product_name_case_insensitive_witness :
    analyzeCategoryStr pnUC sW = analyzeCategoryStr pnLC sW :=
  product_name_case_insensitive pnUC pnLC sW (by decide)

def pn7 : Str := "ee zz qq rr".data
def sLow : Store :=
  ⟨[⟨1, "ee".data, true⟩, ⟨2, "zz".data, true⟩],
   [⟨1, "ee".data, false⟩, ⟨2, "qq".data, false⟩, ⟨2, "rr".data, false⟩],
   true, true⟩
def sUp : Store :=
  ⟨[⟨1, "ee".data, true⟩, ⟨2, "zz".data, true⟩],
   [⟨1, "EE".data, false⟩, ⟨2, "qq".data, false⟩, ⟨2, "rr".data, false⟩],
   true, true⟩

/-- C7 (counterexample): `sUp` differs from `sLow` only in the letter
case of the stored keyword "ee"/"EE" (their lowercased keyword tables
coincide, categories and flags are identical), yet the classifier
returns category 1 for one store and category 2 for the other on the
same product name. -/
theorem keyword_case_changes_result :
    analyzeCategoryStr pn7 sLow = some 1 ∧
    analyzeCategoryStr pn7 sUp = some 2 ∧
    sUp.categories = sLow.categories ∧
    sUp.keywords.map (fun k => (k.categoryId, toLower k.keyword, k.isHighPriority)) =
      sLow.keywords.map (fun k => (k.categoryId, toLower k.keyword, k.isHighPriority)) ∧
    sUp.categoriesOk = sLow.categoriesOk ∧ sUp.keywordsOk = sLow.keywordsOk := by
  exact ⟨by decide, by decide, by decide, by decide, rfl, rfl⟩

/-- Drop the inactive categories and the keywords registered to them. -/
def purgeInactive (s : Store) : Store :=
  ⟨s.categories.filter (fun c => c.isActive),
   s.keywords.filter (fun k => s.categories.any fun c => c.isActive && c.id == k.categoryId),
   s.categoriesOk, s.keywordsOk⟩

theorem filter_active_purge (s : Store) :
    (purgeInactive s).categories.filter (fun c => c.isActive) =
      s.categories.filter (fun c => c.isActive) := by
  show (s.categories.filter (fun c => c.isActive)).filter (fun c => c.isActive) = _
  rw [List.filter_filter]
  simp

theorem flatMap_filter_eq {α β : Type} (l : List α) (q : α → Bool) (f : α → List β)
    (h : ∀ a, q a = false → f a = []) :
    (l.filter q).flatMap f = l.flatMap f := by
  induction l with
  | nil => rfl
  | cons a t ih =>
    by_cases hq : q a
    · simp [List.filter_cons, hq, ih]
    · have hf := h a (by simpa using hq)
      simp [List.filter_cons, hq, ih, hf]

theorem joined_purge (s : Store) :
    joinedKeywordRows (purgeInactive s) = joinedKeywordRows s := by
  unfold joinedKeywordRows
  simp only [filter_active_purge]
  congr 1
  show ((s.keywords.filter _).flatMap fun k =>
      ((s.categories.filter (fun c => c.isActive)).filter
        (fun c => c.id == k.categoryId)).map (fun _ => k)) = _
  apply flatMap_filter_eq
  intro k hk
  have hall : ∀ c ∈ s.categories, ¬(c.isActive && c.id == k.categoryId) = true := by
    simpa [List.any_eq_true] using hk
  have hnil : (s.categories.filter (fun c => c.isActive)).filter
      (fun c => c.id == k.categoryId) = [] := by
    rw [List.filter_filter]
    rw [List.filter_eq_nil_iff]
    intro c hc
    have := hall c hc
    simp only [Bool.and_eq_true] at this ⊢
    tauto
  rw [hnil]
  rfl

/-- C8: removing every inactive category, and every keyword whose owning
category is inactive, never changes the result of `analyzeCategory`: a
keyword registered only under an inactive category cannot contribute. -/
theorem inactive_removal (pn : Option Str) (s : Store) :
    analyzeCategory pn (purgeInactive s) = analyzeCategory pn s := by
  have hc : fetchCategories (purgeInactive s) = fetchCategories s := by
    show (if s.categoriesOk = true
      then some (sortLe (fun a b => strLe a.name b.name)
        ((purgeInactive s).categories.filter (fun c => c.isActive)))
      else none) = _
    rw [filter_active_purge]
    rfl
  have hk : fetchKeywords (purgeInactive s) = fetchKeywords s := by
    show (if s.keywordsOk = true then some (joinedKeywordRows (purgeInactive s))
      else none) = _
    rw [joined_purge]
    rfl
  unfold analyzeCategory analyzeCore
  simp only [hc, hk]

theorem splitOnSep_no_sep (p : Char → Bool) (l : Str) (h : ∀ c ∈ l, p c = false) :
    splitOnSep p l = [l] := by
  induction l with
  | nil => rfl
  | cons c t ih =>
    have hc : p c = false := h c (List.mem_cons_self c t)
    have ht : splitOnSep p t = [t] :=
      ih (fun d hd => h d (List.mem_cons_of_mem _ hd))
    unfold splitOnSep
    simp [hc, ht]

/-- C10: a single-token category name (no whitespace/hyphen/underscore,
length > 1) appears TWICE among the category's initial candidates — once
as the name, once as its only name token — and when it matches the
product name, each occurrence scores +20 under the exact-name rule (+40
total) and both are recorded as matched, so the multi-match bonus fires
and the bonus pass yields 44 (plus the two length bonuses when the name
is longer than 5 characters). -/
theorem single_token_name_double (cat : Category) (pn : Str)
    (h1 : ∀ c ∈ toLower cat.name, isSplitChar c = false)
    (h2 : 1 < (toLower cat.name).length)
    (hm : specMatched pn (toLower cat.name) = true) :
    initKeywords cat = [toLower cat.name, toLower cat.name] ∧
    (initKeywords cat).foldlM
      (keywordStep cat.name (some (catWordsOf cat)) [] pn) (0, ([] : List Str)) =
      some (40, [toLower cat.name, toLower cat.name]) ∧
    applyBonuses (40, [toLower cat.name, toLower cat.name]) =
      44 + (if 5 < (toLower cat.name).length then 4 else 0) := by
  have hw : catWordsOf cat = [toLower cat.name] := by
    unfold catWordsOf
    rw [splitOnSep_no_sep isSplitChar (toLower cat.name) h1]
    simp [h2]
  have hi : initKeywords cat = [toLower cat.name, toLower cat.name] := by
    unfold initKeywords
    rw [hw]
  have hstep : ∀ acc : Nat × List Str,
      pureStep cat.name (some (catWordsOf cat)) [] pn acc (toLower cat.name) =
        (acc.1 + 20, acc.2 ++ [toLower cat.name]) := by
    intro acc
    simp only [pureStep]
    rw [show (litWholeWord (toLower (toLower cat.name)) pn ||
      includesStr pn (toLower (toLower cat.name))) = true from hm]
    simp
  refine ⟨hi, ?_, ?_⟩
  · rw [hi]
    rw [foldlM_option_eq_foldl _ _
      (keywordStep_eq_pure cat.name (some (catWordsOf cat)) [] pn)]
    congr 1
    rw [List.foldl_cons, hstep, List.foldl_cons, hstep, List.foldl_nil]
    simp
  · unfold applyBonuses
    rw [foldl_lengthBonus]
    by_cases hl : 5 < (toLower cat.name).length <;>
      simp [hl, List.countP_cons]

theorem single_token_name_double_witness :
    initKeywords tvCat = [toLower tvCat.name, toLower tvCat.name] ∧
    (initKeywords tvCat).foldlM
      (keywordStep tvCat.name (some (catWordsOf tvCat)) [] tvS) (0, ([] : List Str)) =
      some (40, [toLower tvCat.name, toLower tvCat.name]) ∧
    applyBonuses (40, [toLower tvCat.name, toLower tvCat.name]) =
      44 + (if 5 < (toLower tvCat.name).length then 4 else 0) :=
  single_token_name_double tvCat tvS (by decide) (by decide) (by decide)
